import Mathlib

/-!
# Verification of the system update engine core against its specification

This file gives a shallow embedding, in Lean 4, of the parts of the
`system_update_engine` repository that the specification's claims are about:

* `payload_generator/payload_file.cc` — payload emission
  (`PayloadFile::WritePayload`, `PayloadFile::ReorderDataBlobs`);
* `common/prefs.cc` — the preference store (`PrefsBase`, `Prefs::FileStorage`,
  `MemoryPrefs::MemoryStorage`);
* the dynamic-partition controller (`DynamicPartitionControlAndroid`), whose
  implementation file is not part of the provided sources; it is modelled from
  the specification's §4.5 and the behaviour asserted by its unit test
  `aosp/dynamic_partition_control_android_unittest.cc`.

Bytes are modelled as natural numbers, byte strings as `List Nat`, C++ strings
and keys as `List Char`, and fallible functions return `Option` or a `Bool`
success flag exactly where the C++ returns `bool`.
-/

namespace UpdateEngine

/-! ## Payload data model (`payload_file.cc`) -/

/-- One `InstallOperation` as seen by `PayloadFile`: only the blob-addressing
fields are relevant to payload emission.  `hasDataOffset` models
`op.has_data_offset()`; per the `CHECK(aop.op.has_data_length())` in
`ReorderDataBlobs`, a blob-bearing operation always carries a `data_length`.
(The `data_sha256_hash` field set by `AddOperationHash` is not referenced by
any claim and is omitted.) -/
structure InstallOp where
  hasDataOffset : Bool
  dataOffset : Nat
  dataLength : Nat
deriving DecidableEq, Repr

/-- The manifest fields that `PayloadFile::WritePayload` reads or writes:
the per-partition operation lists copied from `part_vec_`, and the signature
bookkeeping set by `PayloadSigner::AddSignatureToManifest`. -/
structure Manifest where
  partitions : List (List InstallOp)
  signaturesOffset : Nat
  signaturesSize : Nat
  hasSignatures : Bool
deriving DecidableEq, Repr

/-- `kDeltaMagic`: the four bytes `{'C', 'r', 'A', 'U'}`. -/
def kDeltaMagic : List Nat := [67, 114, 65, 85]

/-- `htobe64` followed by a write of the 8 bytes: big-endian encoding of a
64-bit value (`WriteUint64AsBigEndian`). -/
def be64 (n : Nat) : List Nat :=
  [n / 2 ^ 56 % 256, n / 2 ^ 48 % 256, n / 2 ^ 40 % 256, n / 2 ^ 32 % 256,
   n / 2 ^ 24 % 256, n / 2 ^ 16 % 256, n / 2 ^ 8 % 256, n % 256]

/-- `htobe32` followed by a write of the 4 bytes: big-endian encoding of a
32-bit value (the `metadata_signature_size` field). -/
def be32 (n : Nat) : List Nat :=
  [n / 2 ^ 24 % 256, n / 2 ^ 16 % 256, n / 2 ^ 8 % 256, n % 256]

/-- Result of the static `PayloadFile::WritePayload` overload: the bytes of
the produced file and the `metadata_size` reported through
`metadata_size_out`. -/
structure PayloadWriteResult where
  bytes : List Nat
  metadataSize : Nat
deriving DecidableEq, Repr

/-- The static `PayloadFile::WritePayload` overload (`payload_file.cc:213`).
Writer steps in source order: magic, big-endian major version, big-endian
manifest length, big-endian metadata-signature length (the manifest's
`signatures_size()`), the serialized manifest, then — when a private key is
given (`signedPayload`) — the metadata signature, then the ordered data
blobs, then the payload signature.  `metadata_size` starts at
`sizeof(kDeltaMagic) + 2 * sizeof(uint64_t) + serialized_manifest.size()` and
gains `sizeof(metadata_signature_size)` when that field is written. -/
def writePayloadInner (serializedManifest : List Nat) (majorVersion : Nat)
    (sigSize : Nat) (metadataSig orderedBlobs payloadSig : List Nat)
    (signedPayload : Bool) : PayloadWriteResult :=
  let metadataSize0 := kDeltaMagic.length + 2 * 8 + serializedManifest.length
  let w1 := kDeltaMagic
  let w2 := w1 ++ be64 majorVersion
  let w3 := w2 ++ be64 serializedManifest.length
  let w4 := w3 ++ be32 sigSize
  let metadataSize1 := metadataSize0 + 4
  let w5 := w4 ++ serializedManifest
  let w6 := if signedPayload then w5 ++ metadataSig else w5
  let w7 := w6 ++ orderedBlobs
  let w8 := if signedPayload then w7 ++ payloadSig else w7
  { bytes := w8, metadataSize := metadataSize1 }

theorem be64_length (n : Nat) : (be64 n).length = 8 := rfl

theorem be32_length (n : Nat) : (be32 n).length = 4 := rfl

/-- **C2.**  Every payload written by `PayloadFile::WritePayload` begins with
the 4-byte magic `CrAU`, then the 8-byte big-endian major version, then the
8-byte big-endian manifest length, then the 4-byte big-endian
metadata-signature length, then the serialized manifest; and the reported
`metadata_size` equals `4 + 8 + 8 + 4 + (serialized manifest length)`. -/
theorem payload_header_layout (m : List Nat) (major sigSize : Nat)
    (metadataSig blobs payloadSig : List Nat) (signedPayload : Bool) :
    (writePayloadInner m major sigSize metadataSig blobs payloadSig
        signedPayload).bytes.take 4 = kDeltaMagic ∧
    (((writePayloadInner m major sigSize metadataSig blobs payloadSig
        signedPayload).bytes.drop 4).take 8 = be64 major) ∧
    (((writePayloadInner m major sigSize metadataSig blobs payloadSig
        signedPayload).bytes.drop 12).take 8 = be64 m.length) ∧
    (((writePayloadInner m major sigSize metadataSig blobs payloadSig
        signedPayload).bytes.drop 20).take 4 = be32 sigSize) ∧
    (((writePayloadInner m major sigSize metadataSig blobs payloadSig
        signedPayload).bytes.drop 24).take m.length = m) ∧
    (writePayloadInner m major sigSize metadataSig blobs payloadSig
        signedPayload).metadataSize = 4 + 8 + 8 + 4 + m.length := by
  unfold writePayloadInner
  simp only [kDeltaMagic, be64, be32]
  refine ⟨?_, ?_, ?_, ?_, ?_, ?_⟩ <;>
    cases signedPayload <;>
      simp [List.take_append, List.drop_append, List.append_assoc,
        List.take_append_eq_append_take, List.drop_append_eq_append_drop,
        List.take_of_length_le] <;> omega

/-! ## Blob reordering and the full emission pipeline -/

/-- The `pread` of `data_length` bytes at `data_offset` in `ReorderDataBlobs`;
the surrounding `TEST_AND_RETURN_FALSE(rc == buf.size())` makes a short read
a failure. -/
def readSlice (file : List Nat) (off len : Nat) : Option (List Nat) :=
  if off + len ≤ file.length then some ((file.drop off).take len) else none

/-- The inner loop of `PayloadFile::ReorderDataBlobs` over one partition's
annotated operations: skip operations without `data_offset`; for the rest,
read the blob at the old offset, rewrite `data_offset` to the running output
size, append the blob to the output file, and advance the running size by
`data_length`.  Returns the final output size, the bytes appended, and the
rewritten operations. -/
def reorderAops (file : List Nat) (acc : Nat) :
    List InstallOp → Option (Nat × List Nat × List InstallOp)
  | [] => some (acc, [], [])
  | op :: rest =>
    if op.hasDataOffset then
      match readSlice file op.dataOffset op.dataLength with
      | none => none
      | some buf =>
        match reorderAops file (acc + op.dataLength) rest with
        | none => none
        | some (acc2, bytes, rest2) =>
          some (acc2, buf ++ bytes, { op with dataOffset := acc } :: rest2)
    else
      match reorderAops file acc rest with
      | none => none
      | some (acc2, bytes, rest2) => some (acc2, bytes, op :: rest2)

/-- The outer loop of `ReorderDataBlobs` over `part_vec_`. -/
def reorderParts (file : List Nat) (acc : Nat) :
    List (List InstallOp) → Option (Nat × List Nat × List (List InstallOp))
  | [] => some (acc, [], [])
  | part :: ps =>
    match reorderAops file acc part with
    | none => none
    | some (acc1, bytes1, part1) =>
      match reorderParts file acc1 ps with
      | none => none
      | some (acc2, bytes2, ps2) => some (acc2, bytes1 ++ bytes2, part1 :: ps2)

/-- `PayloadFile::ReorderDataBlobs` (`payload_file.cc:307`): the ordered data
blob bytes and the rewritten partition operation lists. -/
def reorderDataBlobs (file : List Nat) (parts : List (List InstallOp)) :
    Option (List Nat × List (List InstallOp)) :=
  (reorderParts file 0 parts).map fun r => (r.2.1, r.2.2)

/-- The "Check that install op blobs are in order" loop of
`PayloadFile::WritePayload` (`payload_file.cc:128`) over one partition:
`LOG(FATAL)` on a mismatching `data_offset` is modelled as failure; on
success the returned value is the final `next_blob_offset`. -/
def checkBlobOrderOps (acc : Nat) : List InstallOp → Option Nat
  | [] => some acc
  | op :: rest =>
    if op.hasDataOffset then
      if op.dataOffset = acc then checkBlobOrderOps (acc + op.dataLength) rest
      else none
    else checkBlobOrderOps acc rest

/-- The blob-order check over all of `part_vec_`. -/
def checkBlobOrderParts (acc : Nat) : List (List InstallOp) → Option Nat
  | [] => some acc
  | p :: ps =>
    match checkBlobOrderOps acc p with
    | none => none
    | some a => checkBlobOrderParts a ps

/-- Modelled from the spec: `PayloadSigner::AddSignatureToManifest`
(`payload_generator/payload_signer.cc` is not among the provided sources).
Per spec §3 the manifest's optional `signatures_offset` and `signatures_size`
are "relative to the start of the data-blob region"; the call site in
`PayloadFile::WritePayload` passes `next_blob_offset` and the signature blob
length for them. -/
def addSignatureToManifest (nextBlobOffset sigBlobLen : Nat) (m : Manifest) :
    Manifest :=
  { m with
    signaturesOffset := nextBlobOffset
    signaturesSize := sigBlobLen
    hasSignatures := true }

/-- `PayloadFile::WritePayload` (`payload_file.cc:119`): reorder the data
blobs, check blob order, build the manifest from `part_vec_`, note the
signature offset/length when a private key is given, and emit the file via
the static overload.  `serialize` stands for protobuf
`Manifest::SerializeToString`; `metadataSig` and `payloadSig` stand for the
blobs produced by `PayloadSigner::SignHashWithKeys` / `SignPayload`. -/
def writePayloadTop (parts : List (List InstallOp)) (dataFile : List Nat)
    (serialize : Manifest → List Nat) (privateKeyNonempty : Bool)
    (sigBlobLen : Nat) (major : Nat) (metadataSig payloadSig : List Nat) :
    Option (PayloadWriteResult × Manifest) :=
  match reorderDataBlobs dataFile parts with
  | none => none
  | some (orderedBlobs, parts2) =>
    match checkBlobOrderParts 0 parts2 with
    | none => none
    | some nextBlobOffset =>
      let m0 : Manifest :=
        { partitions := parts2
          signaturesOffset := 0
          signaturesSize := 0
          hasSignatures := false }
      let m := if privateKeyNonempty then
          addSignatureToManifest nextBlobOffset sigBlobLen m0
        else m0
      some (writePayloadInner (serialize m) major m.signaturesSize metadataSig
        orderedBlobs payloadSig privateKeyNonempty, m)

/-! ## Blob-offset bookkeeping helpers -/

/-- The blob-bearing operations of a list, in order. -/
def blobOps (l : List InstallOp) : List InstallOp :=
  l.filter (·.hasDataOffset)

/-- The `data_offset` values of the blob-bearing operations, in order. -/
def blobOffsets (l : List InstallOp) : List Nat :=
  (blobOps l).map (·.dataOffset)

/-- The `data_length` values of the blob-bearing operations, in order. -/
def blobLens (l : List InstallOp) : List Nat :=
  (blobOps l).map (·.dataLength)

/-- `partialSums acc l` lists, for each position of `l`, the sum of `acc` and
all earlier elements: the expected cumulative `data_offset` values. -/
def partialSums (acc : Nat) : List Nat → List Nat
  | [] => []
  | x :: xs => acc :: partialSums (acc + x) xs

/-- Decidable strict monotonicity of a list of naturals. -/
def strictIncr : List Nat → Bool
  | [] => true
  | [_] => true
  | a :: b :: r => decide (a < b) && strictIncr (b :: r)

theorem blobOps_cons (op : InstallOp) (l : List InstallOp) :
    blobOps (op :: l) = if op.hasDataOffset then op :: blobOps l
      else blobOps l := by
  by_cases h : op.hasDataOffset <;> simp [blobOps, List.filter_cons, h]

theorem blobLens_cons_true (op : InstallOp) (l : List InstallOp)
    (h : op.hasDataOffset = true) :
    blobLens (op :: l) = op.dataLength :: blobLens l := by
  simp [blobLens, blobOps_cons, h]

theorem blobLens_cons_false (op : InstallOp) (l : List InstallOp)
    (h : op.hasDataOffset = false) :
    blobLens (op :: l) = blobLens l := by
  simp [blobLens, blobOps_cons, h]

theorem blobOffsets_cons_true (op : InstallOp) (l : List InstallOp)
    (h : op.hasDataOffset = true) :
    blobOffsets (op :: l) = op.dataOffset :: blobOffsets l := by
  simp [blobOffsets, blobOps_cons, h]

theorem blobOffsets_cons_false (op : InstallOp) (l : List InstallOp)
    (h : op.hasDataOffset = false) :
    blobOffsets (op :: l) = blobOffsets l := by
  simp [blobOffsets, blobOps_cons, h]

theorem blobOps_append (l1 l2 : List InstallOp) :
    blobOps (l1 ++ l2) = blobOps l1 ++ blobOps l2 := by
  simp [blobOps, List.filter_append]

theorem blobLens_append (l1 l2 : List InstallOp) :
    blobLens (l1 ++ l2) = blobLens l1 ++ blobLens l2 := by
  simp [blobLens, blobOps_append]

theorem blobOffsets_append (l1 l2 : List InstallOp) :
    blobOffsets (l1 ++ l2) = blobOffsets l1 ++ blobOffsets l2 := by
  simp [blobOffsets, blobOps_append]

theorem partialSums_append (xs ys : List Nat) (acc : Nat) :
    partialSums acc (xs ++ ys)
      = partialSums acc xs ++ partialSums (acc + xs.sum) ys := by
  induction xs generalizing acc with
  | nil => simp [partialSums]
  | cons x xs ih =>
    simp [partialSums, ih, Nat.add_assoc]

/-- `ReorderDataBlobs` over one partition: the rewritten operations keep
their `data_length`s, receive the running partial sums as `data_offset`s,
and the bytes written have total length equal to the sum of the blob
lengths. -/
theorem reorderAops_spec (file : List Nat) (acc : Nat)
    (ops : List InstallOp) (acc2 : Nat) (bytes : List Nat)
    (ops2 : List InstallOp)
    (h : reorderAops file acc ops = some (acc2, bytes, ops2)) :
    blobLens ops2 = blobLens ops ∧
    blobOffsets ops2 = partialSums acc (blobLens ops) ∧
    acc2 = acc + (blobLens ops).sum ∧
    bytes.length = (blobLens ops).sum := by
  induction ops generalizing acc acc2 bytes ops2 with
  | nil =>
    simp only [reorderAops, Option.some.injEq, Prod.mk.injEq] at h
    obtain ⟨h1, h2, h3⟩ := h
    subst h1; subst h2; subst h3
    simp [blobLens, blobOffsets, blobOps, partialSums]
  | cons op rest ih =>
    simp only [reorderAops] at h
    by_cases hop : op.hasDataOffset
    · simp only [hop, if_true] at h
      cases hrs : readSlice file op.dataOffset op.dataLength with
      | none => simp [hrs] at h
      | some buf =>
        simp only [hrs] at h
        cases hrec : reorderAops file (acc + op.dataLength) rest with
        | none => simp [hrec] at h
        | some r =>
          obtain ⟨a2, bs, r2⟩ := r
          simp only [hrec, Option.some.injEq, Prod.mk.injEq] at h
          obtain ⟨h1, h2, h3⟩ := h
          subst h1; subst h2; subst h3
          obtain ⟨e1, e2, e3, e4⟩ := ih _ _ _ _ hrec
          have hbuf : buf.length = op.dataLength := by
            simp only [readSlice] at hrs
            split at hrs
            · simp only [Option.some.injEq] at hrs
              subst hrs
              simp only [List.length_take, List.length_drop]
              omega
            · exact absurd hrs (by simp)
          refine ⟨?_, ?_, ?_, ?_⟩
          · rw [blobLens_cons_true _ _ rfl, blobLens_cons_true _ _ hop, e1]
          · rw [blobOffsets_cons_true _ _ rfl, blobLens_cons_true _ _ hop]
            simp only [partialSums]
            rw [e2]
          · rw [blobLens_cons_true _ _ hop]
            simp only [List.sum_cons]
            omega
          · rw [blobLens_cons_true _ _ hop]
            simp only [List.length_append, List.sum_cons]
            omega
    · have hop' : op.hasDataOffset = false := by
        simpa using hop
      simp only [hop', Bool.false_eq_true, if_false] at h
      cases hrec : reorderAops file acc rest with
      | none => simp [hrec] at h
      | some r =>
        obtain ⟨a2, bs, r2⟩ := r
        simp only [hrec, Option.some.injEq, Prod.mk.injEq] at h
        obtain ⟨h1, h2, h3⟩ := h
        subst h1; subst h2; subst h3
        obtain ⟨e1, e2, e3, e4⟩ := ih _ _ _ _ hrec
        rw [blobLens_cons_false op r2 hop', blobLens_cons_false op rest hop',
          blobOffsets_cons_false op r2 hop']
        exact ⟨e1, e2, e3, e4⟩

/-- `ReorderDataBlobs` over all partitions, stated on the concatenation of
the partitions' operation lists. -/
theorem reorderParts_spec (file : List Nat) (acc : Nat)
    (parts : List (List InstallOp)) (acc2 : Nat) (bytes : List Nat)
    (parts2 : List (List InstallOp))
    (h : reorderParts file acc parts = some (acc2, bytes, parts2)) :
    blobLens parts2.flatten = blobLens parts.flatten ∧
    blobOffsets parts2.flatten = partialSums acc (blobLens parts.flatten) ∧
    acc2 = acc + (blobLens parts.flatten).sum ∧
    bytes.length = (blobLens parts.flatten).sum := by
  induction parts generalizing acc acc2 bytes parts2 with
  | nil =>
    simp only [reorderParts, Option.some.injEq, Prod.mk.injEq] at h
    obtain ⟨h1, h2, h3⟩ := h
    subst h1; subst h2; subst h3
    simp [blobLens, blobOffsets, blobOps, partialSums]
  | cons part ps ih =>
    simp only [reorderParts] at h
    cases hp : reorderAops file acc part with
    | none => simp [hp] at h
    | some r1 =>
      obtain ⟨a1, b1, p1⟩ := r1
      simp only [hp] at h
      cases hps : reorderParts file a1 ps with
      | none => simp [hps] at h
      | some r2 =>
        obtain ⟨a2, b2, ps2'⟩ := r2
        simp only [hps, Option.some.injEq, Prod.mk.injEq] at h
        obtain ⟨h1, h2, h3⟩ := h
        subst h1; subst h2; subst h3
        obtain ⟨e1, e2, e3, e4⟩ := reorderAops_spec _ _ _ _ _ _ hp
        obtain ⟨f1, f2, f3, f4⟩ := ih _ _ _ _ hps
        simp only [List.flatten_cons, blobLens_append, blobOffsets_append]
        refine ⟨by rw [e1, f1], ?_, ?_, ?_⟩
        · rw [partialSums_append, e2, f2, e3]
        · simp only [List.sum_append]
          omega
        · simp only [List.length_append, List.sum_append]
          omega

/-- If the blob-order check succeeds, the returned `next_blob_offset` is the
starting offset plus the total blob length. -/
theorem checkBlobOrderOps_sum (ops : List InstallOp) (acc a : Nat)
    (h : checkBlobOrderOps acc ops = some a) :
    a = acc + (blobLens ops).sum := by
  induction ops generalizing acc a with
  | nil =>
    simp only [checkBlobOrderOps, Option.some.injEq] at h
    simp [blobLens, blobOps, h]
  | cons op rest ih =>
    simp only [checkBlobOrderOps] at h
    by_cases hop : op.hasDataOffset
    · simp only [hop, if_true] at h
      by_cases hoff : op.dataOffset = acc
      · simp only [hoff, if_true] at h
        have := ih _ _ h
        rw [blobLens_cons_true _ _ hop]
        simp only [List.sum_cons]
        omega
      · simp [hoff] at h
    · have hop' : op.hasDataOffset = false := by simpa using hop
      simp only [hop', Bool.false_eq_true, if_false] at h
      rw [blobLens_cons_false _ _ hop']
      exact ih _ _ h

theorem checkBlobOrderParts_sum (parts : List (List InstallOp)) (acc a : Nat)
    (h : checkBlobOrderParts acc parts = some a) :
    a = acc + (blobLens parts.flatten).sum := by
  induction parts generalizing acc a with
  | nil =>
    simp only [checkBlobOrderParts, Option.some.injEq] at h
    simp [blobLens, blobOps, h]
  | cons p ps ih =>
    simp only [checkBlobOrderParts] at h
    cases hp : checkBlobOrderOps acc p with
    | none => simp [hp] at h
    | some a1 =>
      simp only [hp] at h
      have h1 := checkBlobOrderOps_sum _ _ _ hp
      have h2 := ih _ _ h
      simp only [List.flatten_cons, blobLens_append, List.sum_append]
      omega

/-- `partialSums` of an all-positive list is strictly increasing. -/
theorem strictIncr_partialSums (l : List Nat) (acc : Nat)
    (h : ∀ x ∈ l, 0 < x) : strictIncr (partialSums acc l) = true := by
  induction l generalizing acc with
  | nil => rfl
  | cons x xs ih =>
    cases xs with
    | nil => rfl
    | cons y ys =>
      simp only [partialSums, strictIncr, Bool.and_eq_true, decide_eq_true_eq]
      constructor
      · have := h x (by simp)
        omega
      · exact ih (acc + x) fun z hz => h z (by simp [hz])

/-- **C1 counterexample.**  The claim asserts that `data_offset` values are
*strictly* increasing across the emitted operations.  `WritePayload` accepts
a blob-bearing operation whose `data_length` is zero (the `CHECK` only
requires `has_data_length`, and a zero-byte `pread` succeeds), and then the
following blob-bearing operation receives the *same* offset: this payload's
emitted offsets are `[0, 0]`, which is not strictly increasing. -/
theorem payload_offsets_strict_counterexample :
    ((writePayloadTop [[⟨true, 0, 0⟩, ⟨true, 0, 5⟩]] [1, 2, 3, 4, 5]
        (fun _ => []) false 0 2 [] []).map
      fun r => blobOffsets r.2.partitions.flatten) = some [0, 0] ∧
    strictIncr [0, 0] = false := by
  constructor
  · rfl
  · rfl

/-- **C1 (amended).**  Across all operations of all partitions of a payload
produced by `PayloadFile::WritePayload`, in emitted order, each blob-bearing
operation's `data_offset` equals the cumulative sum, starting at 0, of the
`data_length` values of all preceding blob-bearing operations (hence the
offsets are non-decreasing); they are strictly increasing provided every
blob-bearing operation has a positive `data_length`. -/
theorem payload_blob_offsets_cumulative (parts : List (List InstallOp))
    (dataFile : List Nat) (serialize : Manifest → List Nat)
    (privateKeyNonempty : Bool) (sigBlobLen major : Nat)
    (metadataSig payloadSig : List Nat) (ps : List (List InstallOp))
    (h : ((writePayloadTop parts dataFile serialize privateKeyNonempty
        sigBlobLen major metadataSig payloadSig).map
      fun r => r.2.partitions) = some ps) :
    blobOffsets ps.flatten = partialSums 0 (blobLens ps.flatten) ∧
    ((∀ l ∈ blobLens ps.flatten, 0 < l) →
      strictIncr (blobOffsets ps.flatten) = true) := by
  have hmain : blobOffsets ps.flatten = partialSums 0 (blobLens ps.flatten) := by
    simp only [writePayloadTop, reorderDataBlobs] at h
    cases hro : reorderParts dataFile 0 parts with
    | none => simp [hro] at h
    | some r =>
      obtain ⟨a0, blobs0, parts2⟩ := r
      simp only [hro, Option.map_some, Option.map_some'] at h
      cases hck : checkBlobOrderParts 0 parts2 with
      | none => simp [hck] at h
      | some nbo =>
        rw [hck] at h
        simp only [Option.map_some, Option.map_some', Option.some.injEq] at h
        obtain ⟨e1, e2, _, _⟩ := reorderParts_spec _ _ _ _ _ _ hro
        have hps : ps = parts2 := by
          cases hpk : privateKeyNonempty <;>
            simp [hpk, addSignatureToManifest] at h <;> exact h.symm
        subst hps
        rw [e2, e1]
  refine ⟨hmain, fun hpos => ?_⟩
  rw [hmain]
  exact strictIncr_partialSums _ _ hpos

/-- Witness for `payload_blob_offsets_cumulative`: a concrete two-operation
payload, with the theorem's hypotheses discharged by evaluation. -/
theorem payload_blob_offsets_cumulative_witness :
    (((writePayloadTop [[⟨true, 0, 2⟩, ⟨true, 2, 3⟩]] [9, 9, 9, 9, 9]
          (fun _ => []) false 0 2 [] []).map
        fun r => r.2.partitions) =
      some [[⟨true, 0, 2⟩, ⟨true, 2, 3⟩]]) ∧
    (blobOffsets ([[⟨true, 0, 2⟩, ⟨true, 2, 3⟩]] :
          List (List InstallOp)).flatten =
        partialSums 0 (blobLens ([[⟨true, 0, 2⟩, ⟨true, 2, 3⟩]] :
          List (List InstallOp)).flatten) ∧
      ((∀ l ∈ blobLens ([[⟨true, 0, 2⟩, ⟨true, 2, 3⟩]] :
          List (List InstallOp)).flatten, 0 < l) →
        strictIncr (blobOffsets ([[⟨true, 0, 2⟩, ⟨true, 2, 3⟩]] :
          List (List InstallOp)).flatten) = true)) :=
  ⟨by decide,
   payload_blob_offsets_cumulative [[⟨true, 0, 2⟩, ⟨true, 2, 3⟩]]
     [9, 9, 9, 9, 9] (fun _ => []) false 0 2 [] []
     [[⟨true, 0, 2⟩, ⟨true, 2, 3⟩]] (by decide)⟩

/-- Dropping exactly the length of the left part of an append yields the
right part. -/
theorem drop_len_append (l1 l2 : List Nat) (n : Nat) (h : n = l1.length) :
    (l1 ++ l2).drop n = l2 := by
  subst h
  rw [List.drop_append_eq_append_drop]
  simp

/-- **C3 counterexample.**  The claim locates the payload-signature blob at
`metadata_size + signatures_offset` from the file start.  In a signed payload
the metadata-signature blob sits between the manifest and the data blobs, so
the payload signature actually begins `metadata_signature_length` bytes
later.  Concretely: one 1-byte blob, a 2-byte metadata signature `[7, 7]`
and payload signature `[8, 8, 8]`; the bytes found at
`metadata_size + signatures_offset` are `[7, 5, 8, 8, 8]`, not the
signature blob. -/
theorem payload_signature_location_counterexample :
    ((writePayloadTop [[⟨true, 0, 1⟩]] [5] (fun _ => [3, 3, 3]) true 2 2
        [7, 7] [8, 8, 8]).map
      fun r => r.1.bytes.drop (r.1.metadataSize + r.2.signaturesOffset)) =
      some [7, 5, 8, 8, 8] ∧
    [7, 5, 8, 8, 8] ≠ [8, 8, 8] := by
  constructor
  · rfl
  · decide

/-- **C3 (amended).**  For every signed payload written by
`PayloadFile::WritePayload` whose metadata-signature blob has the length
recorded in `signatures_size` (`SignatureBlobLength` computes exactly that
length), the payload-signature blob begins at byte offset
`metadata_size + signatures_size + signatures_offset` from the start of the
file — the very offset the code passes to `PayloadSigner::SignPayload` —
and extends to the end of the file. -/
theorem payload_signature_location (parts : List (List InstallOp))
    (dataFile : List Nat) (serialize : Manifest → List Nat)
    (sigBlobLen major : Nat) (metadataSig payloadSig : List Nat)
    (res : PayloadWriteResult) (m : Manifest)
    (h : writePayloadTop parts dataFile serialize true sigBlobLen major
      metadataSig payloadSig = some (res, m))
    (hlen : metadataSig.length = sigBlobLen) :
    res.bytes.drop (res.metadataSize + m.signaturesSize + m.signaturesOffset)
      = payloadSig ∧
    res.bytes.length
      = res.metadataSize + m.signaturesSize + m.signaturesOffset
        + payloadSig.length := by
  simp only [writePayloadTop, reorderDataBlobs] at h
  cases hro : reorderParts dataFile 0 parts with
  | none => simp [hro] at h
  | some r =>
    obtain ⟨a0, blobs0, parts2⟩ := r
    simp only [hro, Option.map_some, Option.map_some'] at h
    cases hck : checkBlobOrderParts 0 parts2 with
    | none => simp [hck] at h
    | some nbo =>
      rw [hck] at h
      simp only [if_true, Option.some.injEq, Prod.mk.injEq] at h
      obtain ⟨hres, hm⟩ := h
      obtain ⟨e1, _, _, e4⟩ := reorderParts_spec _ _ _ _ _ _ hro
      have hnbo : nbo = (blobLens parts2.flatten).sum :=
        by simpa using checkBlobOrderParts_sum _ _ _ hck
      have hblobs : blobs0.length = nbo := by rw [hnbo, e1, e4]
      subst hres
      subst hm
      simp only [writePayloadInner, addSignatureToManifest, if_true]
      constructor
      · exact drop_len_append _ _ _
          (by simp [kDeltaMagic, be64, be32, hlen, hblobs]; omega)
      · simp [kDeltaMagic, be64, be32, hlen, hblobs, addSignatureToManifest]
        omega

/-- Witness for `payload_signature_location`: the concrete signed payload of
the counterexample, with the hypotheses discharged by evaluation; the
signature blob `[8, 8, 8]` indeed begins at
`metadata_size + signatures_size + signatures_offset = 27 + 2 + 1`. -/
theorem payload_signature_location_witness :
    (writePayloadTop [[⟨true, 0, 1⟩]] [5] (fun _ => [3, 3, 3]) true 2 2
        [7, 7] [8, 8, 8]
      = some (⟨[67, 114, 65, 85, 0, 0, 0, 0, 0, 0, 0, 2,
                0, 0, 0, 0, 0, 0, 0, 3, 0, 0, 0, 2,
                3, 3, 3, 7, 7, 5, 8, 8, 8], 27⟩,
              ⟨[[⟨true, 0, 1⟩]], 1, 2, true⟩)) ∧
    ([7, 7] : List Nat).length = 2 ∧
    ((⟨[67, 114, 65, 85, 0, 0, 0, 0, 0, 0, 0, 2,
        0, 0, 0, 0, 0, 0, 0, 3, 0, 0, 0, 2,
        3, 3, 3, 7, 7, 5, 8, 8, 8], 27⟩ :
          PayloadWriteResult).bytes.drop (27 + 2 + 1) = [8, 8, 8] ∧
      (⟨[67, 114, 65, 85, 0, 0, 0, 0, 0, 0, 0, 2,
        0, 0, 0, 0, 0, 0, 0, 3, 0, 0, 0, 2,
        3, 3, 3, 7, 7, 5, 8, 8, 8], 27⟩ :
          PayloadWriteResult).bytes.length = 27 + 2 + 1 + 3) :=
  ⟨by decide, by decide,
   payload_signature_location [[⟨true, 0, 1⟩]] [5] (fun _ => [3, 3, 3]) 2 2
     [7, 7] [8, 8, 8]
     ⟨[67, 114, 65, 85, 0, 0, 0, 0, 0, 0, 0, 2,
       0, 0, 0, 0, 0, 0, 0, 3, 0, 0, 0, 2,
       3, 3, 3, 7, 7, 5, 8, 8, 8], 27⟩
     ⟨[[⟨true, 0, 1⟩]], 1, 2, true⟩ (by decide) (by decide)⟩

/-! ## Preference store (`common/prefs.cc`) -/

/-- Association list keyed by key paths (C++ strings are `List Char`). -/
abbrev KAList (β : Type) := List (List Char × β)

/-- Lookup in an association list (first match). -/
def alGet {β : Type} : KAList β → List Char → Option β
  | [], _ => none
  | (k1, v) :: rest, k => if k1 = k then some v else alGet rest k

/-- A directory of preference files: one file per key, mapping the key path
to the file's contents. -/
abbrev Store := KAList (List Char)

/-- Write a key's file (overwrite or create). -/
def storeSet : Store → List Char → List Char → Store
  | [], k, v => [(k, v)]
  | (k1, v1) :: rest, k, v =>
    if k1 = k then (k, v) :: rest else (k1, v1) :: storeSet rest k v

/-- Remove a key's file (no-op when absent, as `base::DeleteFile` succeeds
on a missing path). -/
def storeDel : Store → List Char → Store
  | [], _ => []
  | (k1, v1) :: rest, k =>
    if k1 = k then storeDel rest k else (k1, v1) :: storeDel rest k

/-- Reading a key's file. -/
def storeGet (s : Store) (k : List Char) : Option (List Char) := alGet s k

/-- The file-system state seen by `Prefs::FileStorage`: the prefs root
directory `<root>` and its transaction sibling `<root>_tmp`, each either
absent or holding a store of key files. -/
structure PrefsFs where
  root : Option Store
  tmp : Option Store
deriving DecidableEq, Repr

/-- The character class accepted by `GetFileNameForKey`
(`prefs.cc:326`-`330`): `isalpha(c) || isdigit(c) || c == '_' || c == '-' ||
c == kKeySeparator` with `kKeySeparator = '/'` (C locale, ASCII). -/
def validKeyChar (c : Char) : Bool :=
  c.isAlpha || c.isDigit || c = '_' || c = '-' || c = '/'

/-- `GetFileNameForKey`'s full key validation: non-empty and every character
in the accepted class. -/
def validKey (k : List Char) : Bool :=
  decide (k ≠ []) && k.all validKeyChar

/-- One file-system access performed by a storage operation; `inTmp` records
whether the path was under `<root>_tmp` (`GetTemporaryDir`) or `<root>`. -/
inductive FsEvent where
  | readF (inTmp : Bool) (key : List Char)
  | writeF (inTmp : Bool) (key : List Char)
  | removeF (inTmp : Bool) (key : List Char)
deriving DecidableEq, Repr

/-- `Prefs::FileStorage::GetFileNameForKey` (`prefs.cc:324`): validate the
key, then resolve it under `<root>_tmp` when that directory exists
(redirecting a transaction's reads and writes) and under `<root>`
otherwise.  Returns the directory selector and the key path, or fails. -/
def getFileNameForKey (fs : PrefsFs) (k : List Char) :
    Option (Bool × List Char) :=
  if validKey k then some (fs.tmp.isSome, k) else none

/-- The store of the directory a resolved file name points into. -/
def dirStore (fs : PrefsFs) (inTmp : Bool) : Option Store :=
  if inTmp then fs.tmp else fs.root

/-- `Prefs::FileStorage::GetKey` (`prefs.cc:267`): resolve the file name and
read the file; the value when present, plus the I/O trace. -/
def fsGetKey (fs : PrefsFs) (k : List Char) :
    Option (List Char) × List FsEvent :=
  match getFileNameForKey fs k with
  | none => (none, [])
  | some (inTmp, key) =>
    match dirStore fs inTmp with
    | none => (none, [FsEvent.readF inTmp key])
    | some s => (storeGet s key, [FsEvent.readF inTmp key])

/-- `Prefs::FileStorage::SetKey` (`prefs.cc:294`): resolve the file name,
create the parent directory when missing, and write the file atomically
(`WriteStringToFileAtomic`).  In this model directory creation always
succeeds, so a valid key's write succeeds. -/
def fsSetKey (fs : PrefsFs) (k v : List Char) :
    Bool × PrefsFs × List FsEvent :=
  match getFileNameForKey fs k with
  | none => (false, fs, [])
  | some (inTmp, key) =>
    if inTmp then
      (true, { fs with tmp := some (storeSet (fs.tmp.getD []) key v) },
        [FsEvent.writeF true key])
    else
      (true, { fs with root := some (storeSet (fs.root.getD []) key v) },
        [FsEvent.writeF false key])

/-- `Prefs::FileStorage::KeyExists` (`prefs.cc:307`): resolve the file name
and `stat` the path. -/
def fsKeyExists (fs : PrefsFs) (k : List Char) : Bool × List FsEvent :=
  match getFileNameForKey fs k with
  | none => (false, [])
  | some (inTmp, key) =>
    match dirStore fs inTmp with
    | none => (false, [FsEvent.readF inTmp key])
    | some s => ((storeGet s key).isSome, [FsEvent.readF inTmp key])

/-- `Prefs::FileStorage::DeleteKey` (`prefs.cc:313`): resolve the file name
and delete the file (`base::DeleteFile` also succeeds when the file does not
exist). -/
def fsDeleteKey (fs : PrefsFs) (k : List Char) :
    Bool × PrefsFs × List FsEvent :=
  match getFileNameForKey fs k with
  | none => (false, fs, [])
  | some (inTmp, key) =>
    if inTmp then
      (true, { fs with tmp := fs.tmp.map fun s => storeDel s key },
        [FsEvent.removeF true key])
    else
      (true, { fs with root := fs.root.map fun s => storeDel s key },
        [FsEvent.removeF false key])

/-- `Prefs::FileStorage::DeleteTemporaryPrefs` (`prefs.cc:213`): remove
`<root>_tmp` entirely; succeeds when it is already absent. -/
def deleteTemporaryPrefs (fs : PrefsFs) : Bool × PrefsFs :=
  (true, { fs with tmp := none })

/-- `Prefs::FileStorage::CreateTemporaryPrefs` (`prefs.cc:191`), backing
`StartTransaction`: delete any existing `<root>_tmp`, fail when `<root>`
does not exist, otherwise copy `<root>` to `<root>_tmp`. -/
def createTemporaryPrefs (fs : PrefsFs) : Bool × PrefsFs :=
  let fs1 := (deleteTemporaryPrefs fs).2
  match fs1.root with
  | none => (false, fs1)
  | some s => (true, { fs1 with tmp := some s })

/-- `Prefs::FileStorage::SwapPrefs` (`prefs.cc:227`), backing
`SubmitTransaction`: delete `<root>`, then `rename(<root>_tmp, <root>)`
(which fails when `<root>_tmp` does not exist); the trailing
`FsyncDirectory` does not change the logical state. -/
def swapPrefs (fs : PrefsFs) : Bool × PrefsFs :=
  let fs1 : PrefsFs := { fs with root := none }
  match fs1.tmp with
  | none => (false, fs1)
  | some s => (true, { root := some s, tmp := none })

/-- `Prefs::FileStorage::Init` (`prefs.cc:243`): when `<root>` is missing
but `<root>_tmp` exists, promote the latter via `SwapPrefs` (interrupted
commit); then, when `<root>_tmp` still exists, delete it (interrupted
prepare).  `DeleteEmptyDirectories` has no effect in this key-to-file
model. -/
def fileStorageInit (fs : PrefsFs) : PrefsFs :=
  let fs1 := if fs.root.isNone && fs.tmp.isSome then (swapPrefs fs).2 else fs
  if fs1.tmp.isSome then { fs1 with tmp := none } else fs1

/-! ## Transactions (claim C4) -/

/-- One write issued between `StartTransaction` and `SubmitTransaction`. -/
inductive WriteOp where
  | setW (k v : List Char)
  | delW (k : List Char)
deriving DecidableEq, Repr

/-- The key a write touches. -/
def WriteOp.key : WriteOp → List Char
  | .setW k _ => k
  | .delW k => k

/-- Apply one write through the file storage (`SetKey` / `DeleteKey`). -/
def applyWriteFs (fs : PrefsFs) : WriteOp → PrefsFs
  | .setW k v => (fsSetKey fs k v).2.1
  | .delW k => (fsDeleteKey fs k).2.1

/-- Apply a write sequence through the file storage. -/
def applyWritesFs (fs : PrefsFs) (ws : List WriteOp) : PrefsFs :=
  ws.foldl applyWriteFs fs

/-- The same writes applied directly to a plain store: the reference
semantics a transaction should realize. -/
def applyWriteStore (s : Store) : WriteOp → Store
  | .setW k v => storeSet s k v
  | .delW k => storeDel s k

/-- Reference semantics over a write sequence. -/
def applyWritesStore (s : Store) (ws : List WriteOp) : Store :=
  ws.foldl applyWriteStore s

/-- During a transaction (`<root>_tmp` present) every valid-key write lands
in the temporary store and `<root>` is untouched. -/
theorem applyWritesFs_tmp (root : Option Store) (u : Store)
    (ws : List WriteOp) (hv : ∀ w ∈ ws, validKey w.key = true) :
    applyWritesFs ⟨root, some u⟩ ws = ⟨root, some (applyWritesStore u ws)⟩ := by
  induction ws generalizing u with
  | nil => rfl
  | cons w rest ih =>
    have hw : validKey w.key = true := hv w (by simp)
    have hrest : ∀ w2 ∈ rest, validKey w2.key = true :=
      fun w2 h2 => hv w2 (by simp [h2])
    cases w with
    | setW k v =>
      simp only [WriteOp.key] at hw
      simp only [applyWritesFs, List.foldl_cons, applyWriteFs, fsSetKey,
        getFileNameForKey, hw, if_true, Option.isSome_some, Option.getD_some,
        applyWritesStore, applyWriteStore]
      exact ih (storeSet u k v) hrest
    | delW k =>
      simp only [WriteOp.key] at hw
      simp only [applyWritesFs, List.foldl_cons, applyWriteFs, fsDeleteKey,
        getFileNameForKey, hw, if_true, Option.isSome_some, Option.map_some,
        applyWritesStore, applyWriteStore]
      exact ih (storeDel u k) hrest

/-- **C4.**  The file-backed transaction is all-or-nothing: (a) after
`StartTransaction` on a store `s` followed by valid-key writes `ws` and a
`SubmitTransaction`, both steps succeed and every read sees exactly the
writes applied to `s`; (b) if the process stops anywhere between
`StartTransaction` and `SubmitTransaction` — states with `<root>` still
holding `s` and `<root>_tmp` arbitrary — `Init` recovers exactly the
pre-transaction store (deleting `<root>_tmp` when both exist); and (c) when
`<root>` is missing but `<root>_tmp` exists, `Init` promotes the latter
(interrupted commit). -/
theorem prefs_transaction_atomic (s : Store) (ws : List WriteOp)
    (t : Option Store) (u : Store)
    (hv : ∀ w ∈ ws, validKey w.key = true) :
    ((createTemporaryPrefs ⟨some s, none⟩).1 = true ∧
     (swapPrefs (applyWritesFs (createTemporaryPrefs ⟨some s, none⟩).2 ws)).1
       = true ∧
     ∀ k, (fsGetKey
         (swapPrefs
           (applyWritesFs (createTemporaryPrefs ⟨some s, none⟩).2 ws)).2
         k).1 =
       if validKey k then storeGet (applyWritesStore s ws) k else none) ∧
    fileStorageInit { root := some s, tmp := t } =
      { root := some s, tmp := none } ∧
    fileStorageInit { root := none, tmp := some u } =
      { root := some u, tmp := none } := by
  refine ⟨?_, by cases t <;> rfl, rfl⟩
  have h1 : createTemporaryPrefs (⟨some s, none⟩ : PrefsFs) =
      (true, (⟨some s, some s⟩ : PrefsFs)) := rfl
  have h2 := applyWritesFs_tmp (some s) s ws hv
  rw [h1]
  refine ⟨rfl, ?_, ?_⟩
  · show (swapPrefs (applyWritesFs ⟨some s, some s⟩ ws)).1 = true
    rw [h2]
    rfl
  · intro k
    show (fsGetKey (swapPrefs (applyWritesFs ⟨some s, some s⟩ ws)).2 k).1 = _
    rw [h2]
    by_cases hk : validKey k = true
    · simp [fsGetKey, getFileNameForKey, hk, swapPrefs, dirStore, storeGet]
    · simp [fsGetKey, getFileNameForKey, hk, swapPrefs]

/-- Witness for `prefs_transaction_atomic`: a one-key store, one write, and
a stale temporary directory. -/
theorem prefs_transaction_atomic_witness :
    (∀ w ∈ [WriteOp.setW ['b'] ['2']], validKey w.key = true) ∧
    ((let fs0 : PrefsFs := { root := some [(['a'], ['1'])], tmp := none }
      let r1 := createTemporaryPrefs fs0
      let fs2 := applyWritesFs r1.2 [WriteOp.setW ['b'] ['2']]
      let r2 := swapPrefs fs2
      r1.1 = true ∧ r2.1 = true ∧
      ∀ k, (fsGetKey r2.2 k).1 =
        if validKey k then
          storeGet (applyWritesStore [(['a'], ['1'])]
            [WriteOp.setW ['b'] ['2']]) k
        else none) ∧
     fileStorageInit { root := some [(['a'], ['1'])], tmp := some [] } =
       { root := some [(['a'], ['1'])], tmp := none } ∧
     fileStorageInit { root := none, tmp := some [(['b'], ['2'])] } =
       { root := some [(['b'], ['2'])], tmp := none }) :=
  ⟨by decide,
   prefs_transaction_atomic [(['a'], ['1'])] [WriteOp.setW ['b'] ['2']]
     (some []) [(['b'], ['2'])] (by decide)⟩

/-! ## Key validation (claim C6) -/

/-- **C6.**  Every file-storage operation taking a key — get, set, exists,
delete — fails when the key is empty or contains a character outside the
accepted class (letters, digits, underscore, dash, slash), and in that case
performs no file read, write, or
removal (empty I/O trace) and leaves the file system unchanged. -/
theorem prefs_invalid_key_rejected (fs : PrefsFs) (k v : List Char)
    (h : k = [] ∨ ∃ c ∈ k, validKeyChar c = false) :
    fsGetKey fs k = (none, []) ∧
    fsSetKey fs k v = (false, fs, []) ∧
    fsKeyExists fs k = (false, []) ∧
    fsDeleteKey fs k = (false, fs, []) := by
  have hvk : validKey k = false := by
    cases h with
    | inl h0 => subst h0; rfl
    | inr h0 =>
      obtain ⟨c, hc, hcf⟩ := h0
      unfold validKey
      have : k.all validKeyChar = false := by
        rcases hall : k.all validKeyChar with _ | _
        · rfl
        · rw [List.all_eq_true] at hall
          exact absurd (hall c hc) (by simp [hcf])
      simp [this]
  simp [fsGetKey, fsSetKey, fsKeyExists, fsDeleteKey, getFileNameForKey, hvk]

/-- Witness for `prefs_invalid_key_rejected`: the key `"a!"` contains `'!'`,
which is outside the accepted class. -/
theorem prefs_invalid_key_rejected_witness :
    (((['a', '!'] : List Char) = [] ∨
        ∃ c ∈ (['a', '!'] : List Char), validKeyChar c = false) ∧
      (fsGetKey ⟨some [], none⟩ ['a', '!'] = (none, []) ∧
       fsSetKey ⟨some [], none⟩ ['a', '!'] ['x'] =
         (false, ⟨some [], none⟩, []) ∧
       fsKeyExists ⟨some [], none⟩ ['a', '!'] = (false, []) ∧
       fsDeleteKey ⟨some [], none⟩ ['a', '!'] =
         (false, ⟨some [], none⟩, []))) :=
  ⟨Or.inr ⟨'!', by decide, by decide⟩,
   prefs_invalid_key_rejected ⟨some [], none⟩ ['a', '!'] ['x']
     (Or.inr ⟨'!', by decide, by decide⟩)⟩

/-! ## Observer notification (claim C5) -/

/-- The observer registry of `PrefsBase`: `observers_` maps a key to the
registered observers (identified here by numeric ids) in registration
order. -/
abbrev ObsReg := KAList (List Nat)

/-- The observer list registered for a key (empty when
`observers_.find(key) == observers_.end()`). -/
def regFind (r : ObsReg) (k : List Char) : List Nat :=
  (alGet r k).getD []

/-- One observable step of `PrefsBase::SetString` / `PrefsBase::Delete`:
the storage write with its outcome, or an observer callback invocation. -/
inductive PrefEvent where
  | storageWrite (ok : Bool)
  | notify (oid : Nat)
deriving DecidableEq, Repr

/-- The state of a `PrefsBase` over the file storage: the storage and the
observer registry. -/
structure PrefsState where
  fs : PrefsFs
  observers : ObsReg
deriving DecidableEq, Repr

/-- The notification loop of `PrefsBase::SetString` / `Delete`
(`prefs.cc:65`-`67`, `122`-`124`): iterate over `copy_observers`, a *copy*
of the observer list taken when the write succeeded.  Each observer's
callback (`cbTable oid`, modelling `OnPrefSet` / `OnPrefDeleted` bodies) may
mutate the live registry — e.g. call `RemoveObserver` — without affecting
the iteration.  Returns the final registry and the invoked observers in
order. -/
def notifyAll (cbTable : Nat → ObsReg → ObsReg) (snapshot : List Nat)
    (reg : ObsReg) : ObsReg × List Nat :=
  match snapshot with
  | [] => (reg, [])
  | oid :: rest =>
    let reg1 := cbTable oid reg
    let r := notifyAll cbTable rest reg1
    (r.1, oid :: r.2)

/-- `PrefsBase::SetString` (`prefs.cc:61`): perform the storage write; on
failure return immediately (`TEST_AND_RETURN_FALSE`); on success copy the
observer list registered for the key and invoke each observer.  The trace
records the write and the notifications in order. -/
def prefsSetString (cbTable : Nat → ObsReg → ObsReg) (st : PrefsState)
    (k v : List Char) : Bool × PrefsState × List PrefEvent :=
  let r := fsSetKey st.fs k v
  if r.1 then
    let snapshot := regFind st.observers k
    let n := notifyAll cbTable snapshot st.observers
    (true, { fs := r.2.1, observers := n.1 },
      PrefEvent.storageWrite true :: n.2.map PrefEvent.notify)
  else
    (false, { st with fs := r.2.1 }, [PrefEvent.storageWrite false])

/-- `PrefsBase::Delete` (`prefs.cc:118`): same pattern over `DeleteKey` and
`OnPrefDeleted`. -/
def prefsDelete (cbTable : Nat → ObsReg → ObsReg) (st : PrefsState)
    (k : List Char) : Bool × PrefsState × List PrefEvent :=
  let r := fsDeleteKey st.fs k
  if r.1 then
    let snapshot := regFind st.observers k
    let n := notifyAll cbTable snapshot st.observers
    (true, { fs := r.2.1, observers := n.1 },
      PrefEvent.storageWrite true :: n.2.map PrefEvent.notify)
  else
    (false, { st with fs := r.2.1 }, [PrefEvent.storageWrite false])

/-- The copy-iteration invokes exactly the snapshot, whatever the callbacks
do to the live registry. -/
theorem notifyAll_invoked (cbTable : Nat → ObsReg → ObsReg)
    (snapshot : List Nat) (reg : ObsReg) :
    (notifyAll cbTable snapshot reg).2 = snapshot := by
  induction snapshot generalizing reg with
  | nil => rfl
  | cons oid rest ih => simp [notifyAll, ih]

/-- **C5.**  For `SetString` and `Delete`: the operation succeeds exactly
when the underlying storage write succeeds; its event trace is the storage
write followed — only in the success case — by one notification per
observer registered for that key at write time, in order; and because the
iteration runs over a copy of the observer list, this holds for *every*
callback table, including callbacks that unregister observers during
notification.  On storage failure no observer fires. -/
theorem prefs_observer_notification (cbTable : Nat → ObsReg → ObsReg)
    (st : PrefsState) (k v : List Char) :
    ((prefsSetString cbTable st k v).1 = (fsSetKey st.fs k v).1 ∧
     (prefsSetString cbTable st k v).2.2 =
       PrefEvent.storageWrite (fsSetKey st.fs k v).1 ::
         (if (fsSetKey st.fs k v).1 then
           (regFind st.observers k).map PrefEvent.notify
          else [])) ∧
    ((prefsDelete cbTable st k).1 = (fsDeleteKey st.fs k).1 ∧
     (prefsDelete cbTable st k).2.2 =
       PrefEvent.storageWrite (fsDeleteKey st.fs k).1 ::
         (if (fsDeleteKey st.fs k).1 then
           (regFind st.observers k).map PrefEvent.notify
          else [])) := by
  constructor
  · unfold prefsSetString
    cases hw : (fsSetKey st.fs k v).1 <;>
      simp [hw, notifyAll_invoked]
  · unfold prefsDelete
    cases hw : (fsDeleteKey st.fs k).1 <;>
      simp [hw, notifyAll_invoked]

/-! ## Typed values: int64 and boolean (claim C7) -/

/-- The whitespace characters stripped by `android::base::Trim`. -/
def isTrimSpace (c : Char) : Bool :=
  c = ' ' || c = '\t' || c = '\n' || c = '\x0b' || c = '\x0c' || c = '\r'

/-- `android::base::Trim`: strip leading and trailing whitespace. -/
def trim (l : List Char) : List Char :=
  ((l.dropWhile isTrimSpace).reverse.dropWhile isTrimSpace).reverse

/-- Decimal rendering of a natural number, most significant digit first. -/
def renderNat (n : Nat) : List Char :=
  if n = 0 then ['0'] else (Nat.digits 10 n).reverse.map Nat.digitChar

/-- The decimal text produced by `std::format` for an `int64_t`
(`PrefsBase::SetInt64`, `prefs.cc:90`). -/
def renderInt (v : Int) : List Char :=
  if v < 0 then '-' :: renderNat v.natAbs else renderNat v.toNat

/-- Unsigned decimal parsing: fails on an empty string or any non-digit. -/
def parseDigits (l : List Char) : Option Nat :=
  if l = [] then none
  else if l.all Char.isDigit then
    some (l.foldl (fun a c => 10 * a + (c.toNat - 48)) 0)
  else none

/-- Modelled behaviour of `android::base::ParseInt` at type `int64_t`
(libbase is an external dependency of `prefs.cc`): an optional sign, decimal
digits, and the `int64` range check `[-2^63, 2^63)`. -/
def parseInt64 (l : List Char) : Option Int :=
  match l with
  | [] => none
  | c :: rest =>
    if c = '-' then
      (parseDigits rest).bind fun n =>
        if (n : Int) ≤ 2 ^ 63 then some (-(n : Int)) else none
    else if c = '+' then
      (parseDigits rest).bind fun n =>
        if (n : Int) < 2 ^ 63 then some (n : Int) else none
    else
      (parseDigits (c :: rest)).bind fun n =>
        if (n : Int) < 2 ^ 63 then some (n : Int) else none

/-- `MemoryPrefs::MemoryStorage`'s `values_` map. -/
abbrev MemStore := KAList (List Char)

/-- `MemoryStorage::GetKey` (`prefs.cc:344`). -/
def memGetKey (m : MemStore) (k : List Char) : Option (List Char) :=
  alGet m k

/-- `MemoryStorage::SetKey` (`prefs.cc:369`): `values_[key] = value`,
always succeeding. -/
def memSetKey (m : MemStore) (k v : List Char) : MemStore :=
  storeSet m k v

/-- `PrefsBase::SetInt64` (`prefs.cc:90`) over the in-memory storage:
`SetString` of the decimal text.  (Observer notification does not change the
stored value; it is covered by `prefsSetString`.) -/
def memSetInt64 (m : MemStore) (k : List Char) (v : Int) : MemStore :=
  memSetKey m k (renderInt v)

/-- `PrefsBase::GetInt64` (`prefs.cc:72`): `GetString`, trim, fail on an
empty result, then `ParseInt<int64_t>`. -/
def memGetInt64 (m : MemStore) (k : List Char) : Option Int :=
  match memGetKey m k with
  | none => none
  | some s =>
    let t := trim s
    if t = [] then none else parseInt64 t

/-- `PrefsBase::SetBoolean` (`prefs.cc:110`): store the literal string
`"true"` or `"false"`. -/
def memSetBoolean (m : MemStore) (k : List Char) (b : Bool) : MemStore :=
  memSetKey m k (if b then "true".data else "false".data)

/-- `PrefsBase::GetBoolean` (`prefs.cc:94`): `GetString`, trim, compare to
the literals `"false"` and `"true"`. -/
def memGetBoolean (m : MemStore) (k : List Char) : Option Bool :=
  match memGetKey m k with
  | none => none
  | some s =>
    let t := trim s
    if t = "false".data then some false
    else if t = "true".data then some true
    else none

theorem alGet_storeSet (m : Store) (k v : List Char) :
    alGet (storeSet m k v) k = some v := by
  induction m with
  | nil => simp [storeSet, alGet]
  | cons e rest ih =>
    obtain ⟨k1, v1⟩ := e
    by_cases h : k1 = k
    · simp [storeSet, alGet, h]
    · simp only [storeSet, h, if_false, Bool.false_eq_true]
      simpa [alGet, h] using ih

theorem digitChar_toNat (d : Nat) (h : d < 10) :
    (Nat.digitChar d).toNat = 48 + d := by
  interval_cases d <;> rfl

theorem digitChar_isDigit (d : Nat) (h : d < 10) :
    (Nat.digitChar d).isDigit = true := by
  interval_cases d <;> decide

theorem digitChar_not_space (d : Nat) (h : d < 10) :
    isTrimSpace (Nat.digitChar d) = false := by
  interval_cases d <;> decide

theorem foldl_digitChar (L : List Nat) (h : ∀ d ∈ L, d < 10) (a : Nat) :
    (L.map Nat.digitChar).foldl (fun acc c => 10 * acc + (c.toNat - 48)) a
      = L.foldl (fun acc d => 10 * acc + d) a := by
  induction L generalizing a with
  | nil => rfl
  | cons d ds ih =>
    simp only [List.map_cons, List.foldl_cons]
    rw [digitChar_toNat d (h d (by simp))]
    rw [ih (fun x hx => h x (by simp [hx]))]
    congr 1
    omega

theorem foldr_ofDigits (L : List Nat) :
    L.foldr (fun d acc => 10 * acc + d) 0 = Nat.ofDigits 10 L := by
  induction L with
  | nil => simp [Nat.ofDigits]
  | cons d ds ih =>
    simp only [List.foldr_cons, ih, Nat.ofDigits_cons]
    ring

theorem foldl_digits_reverse (n : Nat) :
    (Nat.digits 10 n).reverse.foldl (fun acc d => 10 * acc + d) 0 = n := by
  rw [List.foldl_reverse]
  have h := foldr_ofDigits (Nat.digits 10 n)
  calc (Nat.digits 10 n).foldr (fun x y => 10 * y + x) 0
      = (Nat.digits 10 n).foldr (fun d acc => 10 * acc + d) 0 := rfl
    _ = Nat.ofDigits 10 (Nat.digits 10 n) := h
    _ = n := Nat.ofDigits_digits 10 n

theorem parseDigits_renderNat (n : Nat) :
    parseDigits (renderNat n) = some n := by
  by_cases h : n = 0
  · subst h; decide
  · have hne : Nat.digits 10 n ≠ [] := by
      simpa using Nat.digits_ne_nil_iff_ne_zero.mpr h
    have hlt : ∀ d ∈ (Nat.digits 10 n).reverse, d < 10 := by
      intro d hd
      exact Nat.digits_lt_base (by norm_num) (List.mem_reverse.mp hd)
    unfold renderNat parseDigits
    rw [if_neg h]
    rw [if_neg (by simpa using hne)]
    rw [if_pos ?_]
    · rw [foldl_digitChar _ hlt 0, foldl_digits_reverse]
    · rw [List.all_eq_true]
      intro c hc
      obtain ⟨d, hd, hdc⟩ := List.mem_map.mp hc
      exact hdc ▸ digitChar_isDigit d (hlt d hd)

theorem dropWhile_eq_self_of (p : Char → Bool) (l : List Char)
    (h : ∀ c ∈ l, p c = false) : l.dropWhile p = l := by
  cases l with
  | nil => rfl
  | cons a t => simp [List.dropWhile_cons, h a (by simp)]

theorem trim_eq_self (l : List Char) (h : ∀ c ∈ l, isTrimSpace c = false) :
    trim l = l := by
  unfold trim
  rw [dropWhile_eq_self_of _ _ h,
    dropWhile_eq_self_of _ _ (fun c hc => h c (by simpa using hc)),
    List.reverse_reverse]

theorem renderNat_no_space (n : Nat) :
    ∀ c ∈ renderNat n, isTrimSpace c = false := by
  intro c hc
  unfold renderNat at hc
  by_cases h : n = 0
  · simp [h] at hc
    subst hc
    decide
  · rw [if_neg h] at hc
    obtain ⟨d, hd, hdc⟩ := List.mem_map.mp hc
    have : d < 10 := Nat.digits_lt_base (by norm_num) (List.mem_reverse.mp hd)
    exact hdc ▸ digitChar_not_space d this

theorem renderInt_no_space (v : Int) :
    ∀ c ∈ renderInt v, isTrimSpace c = false := by
  intro c hc
  unfold renderInt at hc
  by_cases h : v < 0
  · rw [if_pos h] at hc
    rcases List.mem_cons.mp hc with hc | hc
    · subst hc; decide
    · exact renderNat_no_space _ c hc
  · rw [if_neg h] at hc
    exact renderNat_no_space _ c hc

theorem renderNat_ne_nil (n : Nat) : renderNat n ≠ [] := by
  unfold renderNat
  by_cases h : n = 0
  · simp [h]
  · rw [if_neg h]
    have hne : Nat.digits 10 n ≠ [] := by
      simpa using Nat.digits_ne_nil_iff_ne_zero.mpr h
    simpa using hne

theorem renderNat_head_digit (n : Nat) :
    ∃ c rest, renderNat n = c :: rest ∧ c.isDigit = true := by
  by_cases h : n = 0
  · exact ⟨'0', [], by simp [renderNat, h], by decide⟩
  · have hne : ((Nat.digits 10 n).reverse.map Nat.digitChar) ≠ [] := by
      simpa using Nat.digits_ne_nil_iff_ne_zero.mpr h
    cases hl : (Nat.digits 10 n).reverse.map Nat.digitChar with
    | nil => exact absurd hl hne
    | cons c rest =>
      refine ⟨c, rest, by simp [renderNat, h, hl], ?_⟩
      have hc : c ∈ (Nat.digits 10 n).reverse.map Nat.digitChar := by
        simp [hl]
      obtain ⟨d, hd, hdc⟩ := List.mem_map.mp hc
      have : d < 10 :=
        Nat.digits_lt_base (by norm_num) (List.mem_reverse.mp hd)
      exact hdc ▸ digitChar_isDigit d this

theorem parseInt64_renderInt (v : Int) (h1 : -(2 : Int) ^ 63 ≤ v)
    (h2 : v < 2 ^ 63) : parseInt64 (renderInt v) = some v := by
  by_cases hv : v < 0
  · unfold renderInt
    rw [if_pos hv]
    have hstep : parseInt64 ('-' :: renderNat v.natAbs) =
        (parseDigits (renderNat v.natAbs)).bind fun n =>
          if (n : Int) ≤ 2 ^ 63 then some (-(n : Int)) else none := by
      simp [parseInt64]
    rw [hstep, parseDigits_renderNat, Option.some_bind]
    rw [if_pos (by omega)]
    congr 1
    omega
  · unfold renderInt
    rw [if_neg hv]
    obtain ⟨c, rest, hcr, hcd⟩ := renderNat_head_digit v.toNat
    rw [hcr]
    have hcm : c ≠ '-' := fun he => by
      subst he; exact absurd hcd (by decide)
    have hcp : c ≠ '+' := fun he => by
      subst he; exact absurd hcd (by decide)
    have hstep : parseInt64 (c :: rest) =
        (parseDigits (c :: rest)).bind fun n =>
          if (n : Int) < 2 ^ 63 then some (n : Int) else none := by
      simp [parseInt64, hcm, hcp]
    rw [hstep, ← hcr, parseDigits_renderNat, Option.some_bind]
    rw [if_pos (by omega)]
    congr 1
    omega

theorem renderInt_ne_nil (v : Int) : renderInt v ≠ [] := by
  unfold renderInt
  by_cases hv : v < 0
  · simp [hv]
  · simp [hv, renderNat_ne_nil]

/-- **C7.**  Over the in-memory storage of `prefs.cc`: `GetInt64` after a
successful `SetInt64(key, v)` returns `v` for every `int64` value `v` (the
value is stored as decimal text), and `GetBoolean` after a successful
`SetBoolean(key, b)` returns `b` (the value is stored as the literal string
`"true"` or `"false"`). -/
theorem prefs_int64_bool_roundtrip (m : MemStore) (k : List Char) (v : Int)
    (b : Bool) (h1 : -(2 : Int) ^ 63 ≤ v) (h2 : v < 2 ^ 63) :
    memGetInt64 (memSetInt64 m k v) k = some v ∧
    memGetBoolean (memSetBoolean m k b) k = some b := by
  constructor
  · unfold memGetInt64 memSetInt64 memSetKey memGetKey
    rw [alGet_storeSet]
    simp only
    rw [trim_eq_self _ (renderInt_no_space v)]
    rw [if_neg (renderInt_ne_nil v)]
    exact parseInt64_renderInt v h1 h2
  · unfold memGetBoolean memSetBoolean memSetKey memGetKey
    rw [alGet_storeSet]
    cases b <;> decide

/-- Witness for `prefs_int64_bool_roundtrip`: key `"a"`, value `-5`,
boolean `true`. -/
theorem prefs_int64_bool_roundtrip_witness :
    (-(2 : Int) ^ 63 ≤ -5 ∧ (-5 : Int) < 2 ^ 63) ∧
    (memGetInt64 (memSetInt64 [] ['a'] (-5)) ['a'] = some (-5) ∧
     memGetBoolean (memSetBoolean [] ['a'] true) ['a'] = some true) :=
  ⟨⟨by decide, by decide⟩,
   prefs_int64_bool_roundtrip [] ['a'] (-5) true (by decide) (by decide)⟩

/-! ## Dynamic partition / snapshot controller (claims C8–C10)

`DynamicPartitionControlAndroid`'s implementation file is not among the
provided sources; only its unit test
(`aosp/dynamic_partition_control_android_unittest.cc`) is.  The definitions
below are modelled from the specification's §4.5 and the behaviour that unit
test asserts. -/

/-- A block extent `{start_block, num_blocks}`. -/
structure Extent where
  startBlock : Nat
  numBlocks : Nat
deriving DecidableEq, Repr

/-- The blocks of one extent, in order. -/
def extentBlocks (e : Extent) : List Nat :=
  (List.range e.numBlocks).map fun i => e.startBlock + i

/-- The blocks of an extent list, in order. -/
def extentsBlocks (es : List Extent) : List Nat :=
  (es.map extentBlocks).flatten

/-- Re-pack a block list into maximal contiguous extents. -/
def packBlocks : List Nat → List Extent
  | [] => []
  | b :: rest =>
    match packBlocks rest with
    | [] => [⟨b, 1⟩]
    | e :: es =>
      if b + 1 = e.startBlock then ⟨b, e.numBlocks + 1⟩ :: es
      else ⟨b, 1⟩ :: e :: es

/-- Install-operation types relevant to the optimizer: `SOURCE_COPY` and
everything else (the test uses `REPLACE` as the non-`SOURCE_COPY`
representative). -/
inductive DynOpType where
  | replaceOp
  | sourceCopy
deriving DecidableEq, Repr

/-- An install operation as the optimizer sees it. -/
structure DynInstallOp where
  opType : DynOpType
  srcExtents : List Extent
  dstExtents : List Extent
deriving DecidableEq, Repr

/-- Modelled from the spec:
`DynamicPartitionControlAndroid::OptimizeOperation`
(`aosp/dynamic_partition_control_android.cc` is not among the provided
sources).  Spec §4.5: "for SOURCE_COPY when snapshots are enabled and
source==destination extents, returns an operation with empty extents
(becomes a no-op)".  The unit test `OptimizeOperationTest` further fixes the
behaviour: a non-`SOURCE_COPY` operation, a disabled Virtual A/B flag, a
target that does not support snapshots, or a static (non-dynamic) target
partition cannot be optimized; with both sides expanded to block lists,
unequal lengths cannot be optimized, identical block pairs are dropped and
the remainder re-packed (`[1,3,4,7,8] → [2,3,4,5,6]` yields
`[1,7,8] → [2,5,6]`). -/
def optimizeOperation (virtualAbEnabled targetSupportsSnapshot
    isDynamicPartition : Bool) (op : DynInstallOp) : Option DynInstallOp :=
  if op.opType ≠ DynOpType.sourceCopy then none
  else if ¬virtualAbEnabled then none
  else if ¬targetSupportsSnapshot then none
  else if ¬isDynamicPartition then none
  else
    let src := extentsBlocks op.srcExtents
    let dst := extentsBlocks op.dstExtents
    if src.length ≠ dst.length then none
    else
      let kept := (src.zip dst).filter fun p => decide (p.1 ≠ p.2)
      some { op with
        srcExtents := packBlocks (kept.map Prod.fst)
        dstExtents := packBlocks (kept.map Prod.snd) }

theorem zip_self_filter_ne (l : List Nat) :
    ((l.zip l).filter fun p => !decide (p.1 = p.2)) = [] := by
  induction l with
  | nil => rfl
  | cons a t ih => simpa [List.zip_cons_cons, List.filter_cons] using ih

/-- **C8.**  For every `SOURCE_COPY` operation whose source extent list
equals its destination extent list, when Virtual A/B is enabled, the target
supports snapshots, and the target partition is dynamic (non-static),
`OptimizeOperation` succeeds and returns an operation whose source and
destination extent lists are both empty — so applying it reads and writes
no bytes. -/
theorem optimize_source_copy_identity (op : DynInstallOp)
    (h1 : op.opType = DynOpType.sourceCopy)
    (h2 : op.srcExtents = op.dstExtents) :
    (optimizeOperation true true true op).map
      (fun o => (o.srcExtents, o.dstExtents)) = some ([], []) := by
  unfold optimizeOperation
  rw [if_neg (by simp [h1])]
  simp only [Bool.not_true, Bool.false_eq_true, if_false, h2]
  rw [if_neg (by simp)]
  simp [zip_self_filter_ne, packBlocks]

/-- Witness for `optimize_source_copy_identity`: the spec's scenario — a
`SOURCE_COPY` with source extents = destination extents =
`{start:0, num:4}`. -/
theorem optimize_source_copy_identity_witness :
    ((⟨DynOpType.sourceCopy, [⟨0, 4⟩], [⟨0, 4⟩]⟩ :
        DynInstallOp).opType = DynOpType.sourceCopy ∧
      (⟨DynOpType.sourceCopy, [⟨0, 4⟩], [⟨0, 4⟩]⟩ :
        DynInstallOp).srcExtents =
      (⟨DynOpType.sourceCopy, [⟨0, 4⟩], [⟨0, 4⟩]⟩ :
        DynInstallOp).dstExtents) ∧
    (optimizeOperation true true true
        ⟨DynOpType.sourceCopy, [⟨0, 4⟩], [⟨0, 4⟩]⟩).map
      (fun o => (o.srcExtents, o.dstExtents)) = some ([], []) :=
  ⟨⟨rfl, rfl⟩,
   optimize_source_copy_identity ⟨DynOpType.sourceCopy, [⟨0, 4⟩], [⟨0, 4⟩]⟩
     rfl rfl⟩

/-- A dynamic-partition group of the manifest, for space accounting: its
maximum size and the sizes of the partitions requested inside it. -/
structure DynGroup where
  maxSize : Nat
  partitionSizes : List Nat
deriving DecidableEq, Repr

/-- Modelled from the spec:
`DynamicPartitionControlAndroid::UpdatePartitionMetadata` (implementation
not among the provided sources).  Spec §4.5: `prepare_partitions_for_update`
"validates and possibly resizes the target slot's metadata so that every
requested partition has an extent large enough; refuses if any group exceeds
its cap or if the sum exceeds half of the super-partition (two slots must
coexist)" — behaviour the unit tests `NotEnoughSpaceForGroup` and
`GroupTooBig` assert.  Success returns the metadata passed to
`StoreMetadata`; failure stores nothing. -/
def updatePartitionMetadata (superSize : Nat) (groups : List DynGroup) :
    Option (List DynGroup) :=
  if groups.any fun g => decide (g.partitionSizes.sum > g.maxSize) then none
  else if (groups.map (fun g => g.maxSize)).sum > superSize / 2 then none
  else some groups

/-- Modelled from the spec:
`DynamicPartitionControlAndroid::PreparePartitionsForUpdate` (implementation
not among the provided sources).  The unit test `ApplyingToCurrentSlot`
fixes that preparing with `target_slot == source_slot` fails regardless of
the manifest and before any metadata mutation; otherwise the target
metadata is computed by `updatePartitionMetadata` and stored on success. -/
def preparePartitionsForUpdate (sourceSlot targetSlot superSize : Nat)
    (groups : List DynGroup) : Option (List DynGroup) :=
  if sourceSlot = targetSlot then none
  else updatePartitionMetadata superSize groups

/-- **C9.**  `PreparePartitionsForUpdate` fails — and stores no target
metadata — whenever the manifest requests a partition larger than its
group's maximum size, or the sum of the requested group sizes exceeds half
of the super-partition size. -/
theorem prepare_rejects_oversized (sourceSlot targetSlot superSize : Nat)
    (groups : List DynGroup)
    (h : (∃ g ∈ groups, ∃ p ∈ g.partitionSizes, p > g.maxSize) ∨
      (groups.map (fun g => g.maxSize)).sum > superSize / 2) :
    preparePartitionsForUpdate sourceSlot targetSlot superSize groups
      = none := by
  unfold preparePartitionsForUpdate
  by_cases hs : sourceSlot = targetSlot
  · simp [hs]
  · rw [if_neg hs]
    unfold updatePartitionMetadata
    rcases h with ⟨g, hg, p, hp, hbig⟩ | hsum
    · rw [if_pos ?_]
      rw [List.any_eq_true]
      refine ⟨g, hg, ?_⟩
      have hle : p ≤ g.partitionSizes.sum :=
        List.single_le_sum (fun x _ => Nat.zero_le x) p hp
      simp only [decide_eq_true_eq]
      omega
    · by_cases hany :
          (groups.any fun g => decide (g.partitionSizes.sum > g.maxSize))
            = true
      · simp [hany]
      · simp only [hany, Bool.false_eq_true, if_false]
        rw [if_pos hsum]

/-- Witness for `prepare_rejects_oversized`: the `NotEnoughSpaceForGroup`
shape — a group of maximum size 2 asked to hold a partition of size 3
(units of GiB), on a 10 GiB super-partition. -/
theorem prepare_rejects_oversized_witness :
    ((∃ g ∈ [(⟨3, [1]⟩ : DynGroup), ⟨2, [3]⟩],
        ∃ p ∈ g.partitionSizes, p > g.maxSize) ∨
      (([(⟨3, [1]⟩ : DynGroup), ⟨2, [3]⟩].map
        (fun g => g.maxSize)).sum > 10 / 2)) ∧
    preparePartitionsForUpdate 0 1 10 [⟨3, [1]⟩, ⟨2, [3]⟩] = none :=
  ⟨Or.inl ⟨⟨2, [3]⟩, by decide, 3, by decide, by decide⟩,
   prepare_rejects_oversized 0 1 10 [⟨3, [1]⟩, ⟨2, [3]⟩]
     (Or.inl ⟨⟨2, [3]⟩, by decide, 3, by decide, by decide⟩)⟩

/-- **C10.**  `PreparePartitionsForUpdate` fails whenever the target slot
equals the source (currently booted) slot, for every manifest and
super-partition size, and performs no metadata mutation (nothing is passed
to `StoreMetadata`). -/
theorem prepare_rejects_current_slot (slot superSize : Nat)
    (groups : List DynGroup) :
    preparePartitionsForUpdate slot slot superSize groups = none := by
  simp [preparePartitionsForUpdate]

end UpdateEngine
